import Mathlib

/-!
Verification development for the gommits repository.

Shallow embedding of:
* the history resolver (`internal/git/git.go`: `GatherCommits`,
  `GetChangedFiles`, `DetectDefaultBranch`), with all `git` subprocess
  invocations abstracted as an oracle record;
* the session controller (`internal/ui/ui.go`: `Update`, `fetchCommitsCmd`)
  including the toast animator, with `float64` easing arithmetic modelled
  exactly over `ℚ` and wall-clock times as integer milliseconds;
* the export adapters (`pkg/utils/csv.go`: `ExportToCSV`, and
  `ExportToExcel`), modelled at the level of the cell grid they write.
-/

/-- Character-level split at every occurrence of the separator
(Go `strings.Split` semantics: splitting the empty list yields `[[]]`). -/
def splitChars (sep : Char) : List Char → List (List Char)
  | [] => [[]]
  | c :: cs =>
    let r := splitChars sep cs
    if c = sep then [] :: r
    else
      match r with
      | [] => [[c]]
      | h :: t => (c :: h) :: t

def strOf (cs : List Char) : String := ⟨cs⟩

/-- Go `strings.Split` with a one-character separator. -/
def goSplit (sep : Char) (s : String) : List String :=
  (splitChars sep s.data).map strOf

/-- Go `strings.TrimSpace`. -/
def goTrim (s : String) : String :=
  strOf (((s.data.dropWhile Char.isWhitespace).reverse.dropWhile Char.isWhitespace).reverse)

/-- Go `strings.HasPrefix`. -/
def strStarts (pre s : String) : Bool := pre.data.isPrefixOf s.data

/-- Join with a one-character separator (as built by repeated `+=` in Go). -/
def joinChar (sep : Char) : List String → String
  | [] => ""
  | [x] => x
  | x :: xs => x ++ strOf [sep] ++ joinChar sep xs

/-- Go `strings.SplitN` with a one-character separator and limit `n > 0`. -/
def goSplitN (sep : Char) (s : String) (n : Nat) : List String :=
  let parts := goSplit sep s
  if parts.length ≤ n then parts
  else parts.take (n - 1) ++ [joinChar sep (parts.drop (n - 1))]

/-- `models.CommitInfo` (internal/models). -/
structure CommitInfo where
  hash : String
  author : String
  email : String
  date : String
  message : String
  files : List String
deriving DecidableEq, Repr

abbrev GitErr := String

/-- The single positional scope argument `GatherCommits` appends to `git log`. -/
inductive LogScope
  | all
  | ref (name : String)
  | range (base tip : String)
deriving DecidableEq, Repr

/-- Oracle abstracting every `git` subprocess invocation made by
`GatherCommits`: `rev-parse --abbrev-ref HEAD`, `rev-parse --verify <ref>`,
`merge-base`, `log`, and `show --name-only --pretty=`. -/
structure GitOracle where
  revParseHead : Except GitErr String
  verifyRef : String → Bool
  mergeBase : String → String → Except GitErr String
  log : LogScope → String → Except GitErr String
  showNameOnly : String → Except GitErr String

/-- `GetChangedFiles` (git.go): trim the output, split on newlines, and map a
single empty entry to the empty list. -/
def parseChangedFiles (out : String) : List String :=
  let files := goSplit '\n' (goTrim out)
  if files = [""] then [] else files

/-- The merge-base branch of `GatherCommits`: on failure fall back to the bare
current branch, on success use the `mergeBase..currentBranch` range. -/
def mergeBaseScope (o : GitOracle) (currentBranch resolvedParent : String) : LogScope :=
  match o.mergeBase currentBranch resolvedParent with
  | .error _ => .ref currentBranch
  | .ok out => .range (goTrim out) currentBranch

/-- Scope-argument computation of `GatherCommits` (git.go lines 43-70):
try the parent branch locally, then as `origin/<parent>`, then degrade. -/
def resolveScope (o : GitOracle) (currentBranch parentBranch : String)
    (currentBranchOnly : Bool) : LogScope :=
  if currentBranchOnly then
    if o.verifyRef parentBranch then
      mergeBaseScope o currentBranch parentBranch
    else if o.verifyRef ("origin/" ++ parentBranch) then
      mergeBaseScope o currentBranch ("origin/" ++ parentBranch)
    else
      .ref currentBranch
  else .all

/-- One `git log` output line: skipped when empty or when `SplitN`-splitting on
`|` with limit 5 yields fewer than 5 fields. -/
def parseLogLine (line : String) : Option (String × String × String × String × String) :=
  if line.length = 0 then none
  else
    match goSplitN '|' line 5 with
    | [h, a, e, d, s] => some (h, a, e, d, s)
    | _ => none

def parseLogLines (out : String) : List (String × String × String × String × String) :=
  (goSplit '\n' (goTrim out)).filterMap parseLogLine

/-- The per-commit loop of `GatherCommits`: a changed-files lookup failure for
any parsed commit aborts the whole operation with that failure. -/
def collectCommits (o : GitOracle) :
    List (String × String × String × String × String) → Except GitErr (List CommitInfo)
  | [] => .ok []
  | (h, a, e, d, s) :: rest =>
    match o.showNameOnly h with
    | .error err => .error err
    | .ok out =>
      match collectCommits o rest with
      | .error err => .error err
      | .ok tail =>
        .ok ({ hash := h, author := a, email := e, date := d, message := s,
               files := parseChangedFiles out } :: tail)

/-- `GatherCommits` (git.go lines 28-110). -/
def gatherCommits (o : GitOracle) (authorInput parentBranch : String)
    (currentBranchOnly : Bool) : Except GitErr (List CommitInfo × String) :=
  match o.revParseHead with
  | .error e => .error e
  | .ok branchOutput =>
    let currentBranch := goTrim branchOutput
    let scope := resolveScope o currentBranch parentBranch currentBranchOnly
    match o.log scope authorInput with
    | .error e => .error e
    | .ok output =>
      match collectCommits o (parseLogLines output) with
      | .error e => .error e
      | .ok results => .ok (results, currentBranch)

/-- Oracle for the `git` invocations of `DetectDefaultBranch`. -/
structure DetectOracle where
  verifyRef : String → Bool
  remoteShowOrigin : Except GitErr String
  branchList : Except GitErr String

def defaultBranches : List String := ["main", "master", "trunk", "development", "dev"]

/-- The candidate loop of `DetectDefaultBranch`: local ref first, then the
`origin/` remote-tracking ref, in the fixed candidate order. -/
def findCandidate (o : DetectOracle) : List String → Option String
  | [] => none
  | b :: rest =>
    if o.verifyRef b then some b
    else if o.verifyRef ("origin/" ++ b) then some ("origin/" ++ b)
    else findCandidate o rest

/-- One line of `git remote show origin` output: a trimmed line starting with
`HEAD branch:` yields the trimmed remainder after the first colon. -/
def headBranchLine (line : String) : Option String :=
  let l := goTrim line
  if strStarts "HEAD branch:" l then
    match goSplitN ':' l 2 with
    | [_, rest] => some (goTrim rest)
    | _ => none
  else none

def advertisedHead (out : String) : Option String :=
  (goSplit '\n' out).findSome? headBranchLine

/-- The `git branch` fallback of `DetectDefaultBranch`: first line, with a
leading `*` removed, trimmed; empty means no result. -/
def firstListedBranch (out : String) : Option String :=
  if out.length > 0 then
    match goSplit '\n' out with
    | [] => none
    | l0 :: _ =>
      let b := goTrim (if strStarts "*" l0 then strOf (l0.data.drop 1) else l0)
      if b = "" then none else some b
  else none

/-- `DetectDefaultBranch` (git.go lines 125-168). -/
def detectDefaultBranch (o : DetectOracle) : String :=
  match findCandidate o defaultBranches with
  | some b => b
  | none =>
    match (match o.remoteShowOrigin with
           | .ok out => advertisedHead out
           | .error _ => none) with
    | some b => b
    | none =>
      match (match o.branchList with
             | .ok out => firstListedBranch out
             | .error _ => none) with
      | some b => b
      | none => "main"

/-- `models.Screen`. -/
inductive Screen
  | home
  | directory
  | author
  | options
  | results
deriving DecidableEq, Repr

/-- `models.ToastType`. -/
inductive ToastType
  | success
  | error
deriving DecidableEq, Repr

/-- The `lipgloss.Style` values the controller assigns to `messageStyle`. -/
inductive MsgStyle
  | info
  | error
  | success
deriving DecidableEq, Repr

/-- `models.Toast`. `startTime` and `duration` are integer milliseconds
(`time.Time` / `time.Duration` hold integer counts and are compared as
integers in the code); opacity and position are the exact rational values of
the `float64` computations. -/
structure Toast where
  message : String
  ttype : ToastType
  visible : Bool
  opacity : ℚ
  position : ℚ
  startTime : Int
  duration : Int
deriving DecidableEq, Repr

/-- The `bubbles` text-input component, at the level the controller observes:
value, placeholder, and the rune limit (`CharLimit = 256`). -/
structure TextInput where
  value : String
  placeholder : String
  charLimit : Nat
deriving DecidableEq, Repr

/-- `textinput.Model.SetValue`: truncates to the char limit when one is set. -/
def TextInput.setValue (ti : TextInput) (s : String) : TextInput :=
  { ti with value := if ti.charLimit > 0 then strOf (s.data.take ti.charLimit) else s }

def TextInput.withPlaceholder (ti : TextInput) (p : String) : TextInput :=
  { ti with placeholder := p }

/-- `textinput.Model.Update` on a rune key: insert at the end, keeping within
the char limit. Non-rune keys leave the value unchanged. -/
def TextInput.insertRunes (ti : TextInput) (s : String) : TextInput :=
  if ti.charLimit > 0 then
    { ti with value := strOf (ti.value.data ++ s.data.take (ti.charLimit - ti.value.length)) }
  else
    { ti with value := ti.value ++ s }

/-- The `model` struct of internal/ui/ui.go. -/
structure Model where
  currentScreen : Screen
  textInput : TextInput
  directory : String
  author : String
  message : String
  messageStyle : MsgStyle
  commits : List CommitInfo
  branch : String
  maxCommits : Int
  showFiles : Bool
  currentBranchOnly : Bool
  parentBranch : String
  quitting : Bool
  width : Int
  height : Int
  toast : Toast
deriving DecidableEq, Repr

/-- The message union delivered to `Update`: key events and the completion
messages of internal/models/ui.go. `FetchCommitsMsg` carries commits, branch
and an optional error, exactly as the Go struct does. -/
inductive Msg
  | keyQuit
  | keyEnter
  | keyTab (alt : Bool)
  | keyRunes (s : String)
  | fetchCommits (commits : List CommitInfo) (branch : String) (err : Option GitErr)
  | exportExcel (path : String) (err : Option GitErr)
  | showToast (message : String) (ttype : ToastType) (duration : Int)
  | hideToast
  | tick (t : Int)
  | resetToHome
  | windowSize (w h : Int)
deriving DecidableEq, Repr

/-- The commands `Update` returns to the bubbletea runtime. -/
inductive Cmd
  | quit
  | fetchCmd (dir author : String) (maxCommits : Int) (currentBranchOnly : Bool)
      (parentBranch : String)
  | exportCmd (commits : List CommitInfo) (path : String)
  | showToastCmd (message : String) (ttype : ToastType) (duration : Int)
  | hideToastAfter (delay : Int)
  | tickCmd (interval : Int)
deriving DecidableEq, Repr

/-- The synchronous git helpers `Update` calls directly on the Directory
screen (`filepath.Abs`, `IsGitRepo`, `GetCurrentBranch`,
`DetectDefaultBranch`). -/
structure GitEnv where
  abs : String → Except GitErr String
  isGitRepo : String → Bool
  getCurrentBranch : String → Except GitErr String
  detectDefault : String → String

def digitsVal (cs : List Char) : Nat :=
  cs.foldl (fun acc c => acc * 10 + (c.toNat - 48)) 0

/-- `fmt.Sscanf(s, "%d", &n)` with `n` initialised to 0: skip leading spaces,
read an optional sign and a maximal digit run; on no digits leave 0. -/
def goScanInt (s : String) : Int :=
  let cs := s.data.dropWhile Char.isWhitespace
  let signAndRest : Bool × List Char :=
    match cs with
    | '-' :: rest => (true, rest)
    | '+' :: rest => (false, rest)
    | _ => (false, cs)
  let ds := signAndRest.2.takeWhile Char.isDigit
  if ds.isEmpty then 0
  else if signAndRest.1 then -(digitsVal ds : Int) else (digitsVal ds : Int)

/-- The `TickMsg` branch of `Update` (ui.go lines 370-402): recompute opacity
and position from `elapsed = now - startTime`; the returned flag says whether
another tick is scheduled. -/
def tickToast (t : Toast) (now : Int) : Toast × Bool :=
  if t.visible then
    let elapsed := now - t.startTime
    if elapsed ≥ t.duration then
      ({ t with visible := false, opacity := 0, position := 0 }, false)
    else
      let slideInDuration : Int := 300
      let t1 :=
        if elapsed < slideInDuration then
          let slideProgress : ℚ := (elapsed : ℚ) / (slideInDuration : ℚ)
          { t with position := 1 - (1 - slideProgress) * (1 - slideProgress) * (1 - slideProgress) }
        else
          { t with position := 1 }
      let fadeInDuration : Int := 200
      let t2 :=
        if elapsed < fadeInDuration then
          { t1 with opacity := (elapsed : ℚ) / (fadeInDuration : ℚ) }
        else
          let fadeOutStart := t.duration - 500
          if elapsed ≥ fadeOutStart then
            { t1 with opacity := 1 - ((elapsed - fadeOutStart : Int) : ℚ) / 500 }
          else
            { t1 with opacity := 1 }
      (t2, true)
  else (t, false)

def promptDirectory : String := "Enter path to Git repository"
def promptAuthor : String := "Enter author name or email"
def promptMaxCommits : String := "Enter maximum number of commits (0 for no limit)"
def promptParentBranch : String := "Enter parent branch name for comparison"

/-- The `tea.KeyEnter` branch of `Update` (ui.go lines 185-278). -/
def updateKeyEnter (env : GitEnv) (m : Model) : Model × List Cmd :=
  match m.currentScreen with
  | .home =>
    ({ m with currentScreen := .directory,
              textInput := (m.textInput.withPlaceholder promptDirectory).setValue "",
              message := "Please enter the path to a Git repository",
              messageStyle := .info }, [])
  | .directory =>
    let dir := if m.textInput.value = "" then "." else m.textInput.value
    match env.abs dir with
    | .error e => ({ m with message := "Error: " ++ e, messageStyle := .error }, [])
    | .ok absDir =>
      if ¬env.isGitRepo absDir then
        ({ m with message := "Error: " ++ absDir ++ " is not a Git repository",
                  messageStyle := .error }, [])
      else
        match env.getCurrentBranch absDir with
        | .error e =>
          ({ m with message := "Error getting branch name: " ++ e, messageStyle := .error }, [])
        | .ok branchName =>
          ({ m with branch := branchName, directory := absDir,
                    parentBranch := env.detectDefault absDir,
                    currentScreen := .author,
                    textInput := (m.textInput.withPlaceholder promptAuthor).setValue "",
                    message := "Please enter the author name or email to filter commits",
                    messageStyle := .info }, [])
  | .author =>
    if m.textInput.value = "" then
      ({ m with message := "Error: Author name cannot be empty", messageStyle := .error }, [])
    else
      ({ m with author := m.textInput.value, currentScreen := .options,
                textInput := (m.textInput.withPlaceholder promptMaxCommits).setValue "0",
                message := "Configure additional options", messageStyle := .info,
                currentBranchOnly := true }, [])
  | .options =>
    if m.message = promptParentBranch then
      let pb := m.textInput.value
      ({ m with parentBranch := if pb ≠ "" then pb else m.parentBranch,
                textInput := (m.textInput.withPlaceholder promptMaxCommits).setValue "0",
                message := "Configure additional options", messageStyle := .info }, [])
    else
      let scanned := goScanInt m.textInput.value
      let maxCommits := if scanned < 0 then 0 else scanned
      ({ m with maxCommits := maxCommits,
                message := "Fetching commits for author '" ++ m.author ++ "' in "
                  ++ m.directory ++ "...",
                messageStyle := .info },
       [Cmd.fetchCmd m.directory m.author maxCommits m.currentBranchOnly m.parentBranch])
  | .results =>
    ({ m with message := "Exporting commits to Excel...", messageStyle := .info },
     [Cmd.exportCmd m.commits m.directory])

/-- The `tea.KeyRunes` branch of `Update` (ui.go lines 291-323). The key falls
through to the text input afterwards and is inserted into the buffer. -/
def updateKeyRunes (m : Model) (key : String) : Model × List Cmd :=
  let m' :=
    if m.currentScreen = .options ∧ key = "p" then
      { m with textInput := (m.textInput.withPlaceholder promptParentBranch).setValue m.parentBranch,
               message := promptParentBranch, messageStyle := .info }
    else if key = "b" ∧ m.currentScreen ≠ .home then
      match m.currentScreen with
      | .home => m
      | .directory =>
        { m with currentScreen := .home, message := "Welcome to Gommits App!",
                 messageStyle := .info }
      | .author =>
        { m with currentScreen := .directory,
                 textInput := (m.textInput.withPlaceholder promptDirectory).setValue m.directory,
                 message := "Please enter the path to a Git repository", messageStyle := .info }
      | .options =>
        { m with currentScreen := .author,
                 textInput := (m.textInput.withPlaceholder promptAuthor).setValue m.author,
                 message := "Please enter the author name or email to filter commits",
                 messageStyle := .info }
      | .results =>
        { m with currentScreen := .options,
                 textInput := (m.textInput.withPlaceholder promptMaxCommits).setValue
                   (toString m.maxCommits),
                 message := "Configure additional options", messageStyle := .info }
    else m
  ({ m' with textInput := m'.textInput.insertRunes key }, [])

/-- `Update` (ui.go lines 175-418): the controller's dispatch step. `now` is
the wall clock read by `time.Now()` / `time.Since` during processing. -/
def update (env : GitEnv) (now : Int) (m : Model) (msg : Msg) : Model × List Cmd :=
  match msg with
  | .keyQuit => ({ m with quitting := true }, [Cmd.quit])
  | .keyEnter => updateKeyEnter env m
  | .keyTab alt =>
    if m.currentScreen = .directory then
      ({ m with textInput := m.textInput.setValue "." }, [])
    else if m.currentScreen = .options then
      if alt then ({ m with showFiles := !m.showFiles }, [])
      else ({ m with currentBranchOnly := !m.currentBranchOnly }, [])
    else (m, [])
  | .keyRunes key => updateKeyRunes m key
  | .fetchCommits commits branch err =>
    match err with
    | some e => ({ m with message := "Error: " ++ e, messageStyle := .error }, [])
    | none =>
      ({ m with commits := commits, branch := branch, currentScreen := .results,
                message := "Found " ++ toString commits.length ++ " commits in branch '"
                  ++ branch ++ "'",
                messageStyle := .success }, [])
  | .exportExcel _ err =>
    match err with
    | some _ => (m, [Cmd.showToastCmd "Export failed" .error 3000])
    | none =>
      (m, [Cmd.showToastCmd ("Exported " ++ toString m.commits.length ++ " commits to Excel")
             .success 3000])
  | .showToast message ttype duration =>
    ({ m with toast := { message := message, ttype := ttype, visible := true, opacity := 0,
                         position := 0, startTime := now, duration := duration } },
     [Cmd.hideToastAfter duration, Cmd.tickCmd 50])
  | .hideToast =>
    ({ m with toast := { m.toast with visible := false, opacity := 0, position := 0 } }, [])
  | .tick _ =>
    let (t, again) := tickToast m.toast now
    ({ m with toast := t }, if again then [Cmd.tickCmd 50] else [])
  | .resetToHome =>
    ({ m with currentScreen := .home,
              textInput := (m.textInput.withPlaceholder promptDirectory).setValue "",
              message := "Welcome to Gommits App!", messageStyle := .info }, [])
  | .windowSize w h => ({ m with width := w, height := h }, [])

/-- `initialModel` (ui.go lines 146-169). -/
def initialModel : Model :=
  { currentScreen := .home,
    textInput := { value := "", placeholder := promptDirectory, charLimit := 256 },
    directory := "", author := "", message := "Welcome to Gommits App!", messageStyle := .info,
    commits := [], branch := "", maxCommits := 0, showFiles := true, currentBranchOnly := true,
    parentBranch := "main", quitting := false, width := 0, height := 0,
    toast := { message := "", ttype := .success, visible := false, opacity := 0, position := 0,
               startTime := 0, duration := 3000 } }

/-- `fetchCommitsCmd` (ui.go lines 86-94): run the resolver, cap the list to
`maxCommits` when positive, and wrap everything in one completion message. -/
def fetchCommitsResult (res : Except GitErr (List CommitInfo × String))
    (maxCommits : Int) : Msg :=
  match res with
  | .error e => .fetchCommits [] "" (some e)
  | .ok (commits, branch) =>
    let commits :=
      if maxCommits > 0 ∧ (commits.length : Int) > maxCommits then
        commits.take maxCommits.toNat
      else commits
    .fetchCommits commits branch none

/-- The §4.2 transition table: forward edges on confirm, the same edges in
reverse on back, Options→Results on fetch success, Results unchanged on
export. -/
def specEdge (a b : Screen) : Bool :=
  match a, b with
  | .home, .directory => true
  | .directory, .author => true
  | .author, .options => true
  | .options, .results => true
  | .results, .results => true
  | .directory, .home => true
  | .author, .directory => true
  | .options, .author => true
  | .results, .options => true
  | _, _ => false

def csvHeader : List String :=
  ["commit_hash", "author_name", "author_email", "commit_date", "commit_message", "file_path"]

/-- The rows `ExportToCSV` writes for one commit (csv.go lines 25-39): one row
per file, or a single blank-file row when the commit touched nothing. -/
def csvRowsOf (c : CommitInfo) : List (List String) :=
  if c.files.length > 0 then
    c.files.map (fun f => [c.hash, c.author, c.email, c.date, c.message, f])
  else
    [[c.hash, c.author, c.email, c.date, c.message, ""]]

/-- `ExportToCSV` (csv.go lines 10-42), as the table of cell rows it writes. -/
def exportToCSV (commits : List CommitInfo) : List (List String) :=
  csvHeader :: commits.flatMap csvRowsOf

/-- The `filesStr` accumulation loop of `ExportToExcel`: files joined with
newlines (empty lists are handled separately by the caller). -/
def goJoinFiles : List String → String
  | [] => ""
  | [f] => f
  | f :: rest => f ++ "\n" ++ goJoinFiles rest

/-- The Files Changed cell of `ExportToExcel`: newline-joined paths, or the
sentinel text when the commit touched nothing. -/
def excelFilesStr (files : List String) : String :=
  if files.length > 0 then goJoinFiles files else "No files changed"

def excelHeaders : List String :=
  ["Commit Hash", "Author Name", "Author Email", "Commit Date", "Commit Message", "Files Changed"]

def excelRowOf (c : CommitInfo) : List String :=
  [c.hash, c.author, c.email, c.date, c.message, excelFilesStr c.files]

/-- `ExportToExcel` (part_000 lines 13-181), as the Commits-sheet cell grid:
header row 1, one data row per commit from row 2. -/
def exportToExcelGrid (commits : List CommitInfo) : List (List String) :=
  excelHeaders :: commits.map excelRowOf

/-- Canonical reader for a Files Changed cell: the sentinel means no files,
anything else splits at newlines. -/
def excelFilesOf (s : String) : List String :=
  if s = "No files changed" then [] else goSplit '\n' s

def excelCommitOfRow (r : List String) : CommitInfo :=
  { hash := r.getD 0 "", author := r.getD 1 "", email := r.getD 2 "", date := r.getD 3 "",
    message := r.getD 4 "", files := excelFilesOf (r.getD 5 "") }

/-- Canonical reader for the Excel grid: drop the header, one commit per row. -/
def excelImport (grid : List (List String)) : List CommitInfo :=
  (grid.drop 1).map excelCommitOfRow

/-- Canonical reader for one CSV data row standing alone: a blank file cell
means the commit touched nothing. -/
def csvCommitOfRow (r : List String) : CommitInfo :=
  { hash := r.getD 0 "", author := r.getD 1 "", email := r.getD 2 "", date := r.getD 3 "",
    message := r.getD 4 "",
    files := if r.getD 5 "" = "" then [] else [r.getD 5 ""] }

/-- Canonical reader for CSV data rows: adjacent rows with the same hash are
file rows of one commit. -/
def csvRowsToCommits : List (List String) → List CommitInfo
  | [] => []
  | r :: rest =>
    match csvRowsToCommits rest with
    | [] => [csvCommitOfRow r]
    | c :: cs =>
      if c.hash = r.getD 0 "" then { c with files := r.getD 5 "" :: c.files } :: cs
      else csvCommitOfRow r :: c :: cs

/-- Canonical reader for the CSV table: drop the header row, then group. -/
def csvImport (table : List (List String)) : List CommitInfo :=
  csvRowsToCommits (table.drop 1)

section ResolverTheorems

lemma collectCommits_ok_mem (o : GitOracle) :
    ∀ (ps : List (String × String × String × String × String)) (l : List CommitInfo),
      collectCommits o ps = .ok l →
      ∀ c ∈ l, ∃ fout, o.showNameOnly c.hash = .ok fout ∧ c.files = parseChangedFiles fout := by
  intro ps
  induction ps with
  | nil =>
    intro l hl c hc
    simp only [collectCommits] at hl
    cases hl
    simp at hc
  | cons p rest ih =>
    intro l hl c hc
    obtain ⟨h, a, e, d, s⟩ := p
    simp only [collectCommits] at hl
    cases hout : o.showNameOnly h with
    | error err => rw [hout] at hl; cases hl
    | ok out =>
      rw [hout] at hl
      cases htail : collectCommits o rest with
      | error err => rw [htail] at hl; cases hl
      | ok tail =>
        rw [htail] at hl
        cases hl
        rcases List.mem_cons.mp hc with hc | hc
        · subst hc; exact ⟨out, hout, rfl⟩
        · exact ih tail htail c hc

lemma collectCommits_abort (o : GitOracle)
    (bad : String × String × String × String × String) (err : GitErr)
    (hfail : o.showNameOnly bad.1 = .error err) :
    ∀ (pre rest : List (String × String × String × String × String)),
      (∀ p ∈ pre, ∃ fout, o.showNameOnly p.1 = .ok fout) →
      collectCommits o (pre ++ bad :: rest) = .error err := by
  intro pre
  induction pre with
  | nil =>
    intro rest _
    obtain ⟨h, a, e, d, s⟩ := bad
    simp only [List.nil_append, collectCommits]
    rw [hfail]
  | cons p pre' ih =>
    intro rest hok
    obtain ⟨h, a, e, d, s⟩ := p
    obtain ⟨fout, hfout⟩ := hok (h, a, e, d, s) (List.mem_cons_self _ _)
    have hrec := ih rest (fun q hq => hok q (List.mem_cons_of_mem _ hq))
    simp only [List.cons_append, collectCommits, hfout, List.append_eq, hrec]

/-- C2: `gatherCommits` is atomic on failure. A failing current-branch
resolution or log query is returned as the overall failure; a failing
changed-files lookup for any parsed commit (all earlier lookups having
succeeded) aborts with that failure, so no partial commit list is ever
returned; and an `ok` result means every underlying invocation succeeded,
each returned commit carrying the parse of its own lookup's output. -/
theorem gatherCommits_atomic (o : GitOracle) (authorInput parentBranch : String)
    (currentBranchOnly : Bool) :
    (∀ e, o.revParseHead = .error e →
       gatherCommits o authorInput parentBranch currentBranchOnly = .error e) ∧
    (∀ out e, o.revParseHead = .ok out →
       o.log (resolveScope o (goTrim out) parentBranch currentBranchOnly) authorInput
         = .error e →
       gatherCommits o authorInput parentBranch currentBranchOnly = .error e) ∧
    (∀ out logOut pre bad rest err, o.revParseHead = .ok out →
       o.log (resolveScope o (goTrim out) parentBranch currentBranchOnly) authorInput
         = .ok logOut →
       parseLogLines logOut = pre ++ bad :: rest →
       (∀ p ∈ pre, ∃ fout, o.showNameOnly p.1 = .ok fout) →
       o.showNameOnly bad.1 = .error err →
       gatherCommits o authorInput parentBranch currentBranchOnly = .error err) ∧
    (∀ l b, gatherCommits o authorInput parentBranch currentBranchOnly = .ok (l, b) →
       (∃ out, o.revParseHead = .ok out ∧ b = goTrim out ∧
          ∃ logOut, o.log (resolveScope o b parentBranch currentBranchOnly) authorInput
            = .ok logOut ∧
          ∀ c ∈ l, ∃ fout, o.showNameOnly c.hash = .ok fout ∧
            c.files = parseChangedFiles fout)) := by
  refine ⟨?_, ?_, ?_, ?_⟩
  · intro e he
    simp only [gatherCommits, he]
  · intro out e hout hlog
    simp only [gatherCommits, hout, hlog]
  · intro out logOut pre bad rest err hout hlog hparse hpre hbad
    simp only [gatherCommits, hout, hlog, hparse]
    rw [collectCommits_abort o bad err hbad pre rest hpre]
  · intro l b hok
    cases hhead : o.revParseHead with
    | error e => simp [gatherCommits, hhead] at hok
    | ok out =>
      cases hlog : o.log (resolveScope o (goTrim out) parentBranch currentBranchOnly)
          authorInput with
      | error e => simp [gatherCommits, hhead, hlog] at hok
      | ok logOut =>
        cases hcoll : collectCommits o (parseLogLines logOut) with
        | error e => simp [gatherCommits, hhead, hlog, hcoll] at hok
        | ok results =>
          simp only [gatherCommits, hhead, hlog, hcoll, Except.ok.injEq,
            Prod.mk.injEq] at hok
          obtain ⟨hl, hb⟩ := hok
          subst hl; subst hb
          exact ⟨out, rfl, rfl,
            logOut, hlog, collectCommits_ok_mem o (parseLogLines logOut) results hcoll⟩

/-- A concrete oracle whose HEAD resolution fails, for the C2 witness. -/
def oracleHeadFails : GitOracle :=
  { revParseHead := .error "fatal: not a git repository",
    verifyRef := fun _ => false,
    mergeBase := fun _ _ => .error "none",
    log := fun _ _ => .ok "",
    showNameOnly := fun _ => .ok "" }

/-- Witness for C2 at a concrete oracle: a failing branch resolution is
returned untouched. -/
theorem gatherCommits_atomic_witness :
    gatherCommits oracleHeadFails "alice" "main" true
      = .error "fatal: not a git repository" :=
  (gatherCommits_atomic oracleHeadFails "alice" "main" true).1
    "fatal: not a git repository" rfl

/-- C3: range resolution of `gatherCommits` with `currentBranchOnly = true`.
If the parent branch is missing locally but `origin/<parent>` exists, the
range is resolved against `origin/<parent>`; if neither exists or the
merge-base computation against the resolved parent fails, the range
degenerates to everything reachable from the current branch; otherwise it is
`mergeBase..currentBranch`. -/
theorem resolveScope_spec (o : GitOracle) (cur parent : String) :
    (o.verifyRef parent = true →
       (∀ e, o.mergeBase cur parent = .error e →
          resolveScope o cur parent true = .ref cur) ∧
       (∀ mb, o.mergeBase cur parent = .ok mb →
          resolveScope o cur parent true = .range (goTrim mb) cur)) ∧
    (o.verifyRef parent = false → o.verifyRef ("origin/" ++ parent) = true →
       (∀ e, o.mergeBase cur ("origin/" ++ parent) = .error e →
          resolveScope o cur parent true = .ref cur) ∧
       (∀ mb, o.mergeBase cur ("origin/" ++ parent) = .ok mb →
          resolveScope o cur parent true = .range (goTrim mb) cur)) ∧
    (o.verifyRef parent = false → o.verifyRef ("origin/" ++ parent) = false →
       resolveScope o cur parent true = .ref cur) := by
  refine ⟨?_, ?_, ?_⟩
  · intro hp
    constructor
    · intro e he
      simp [resolveScope, mergeBaseScope, hp, he]
    · intro mb hmb
      simp [resolveScope, mergeBaseScope, hp, hmb]
  · intro hp ho
    constructor
    · intro e he
      simp [resolveScope, mergeBaseScope, hp, ho, he]
    · intro mb hmb
      simp [resolveScope, mergeBaseScope, hp, ho, hmb]
  · intro hp ho
    simp [resolveScope, hp, ho]

/-- Oracle for the C3 witness: the parent exists only as a remote-tracking
ref, and the merge-base query against it succeeds. -/
def oracleRemoteParent : GitOracle :=
  { revParseHead := .ok "feature\n",
    verifyRef := fun r => r = "origin/main",
    mergeBase := fun _ r => if r = "origin/main" then .ok "abc123\n" else .error "no merge base",
    log := fun _ _ => .ok "",
    showNameOnly := fun _ => .ok "" }

/-- Witness for C3: with only `origin/main` present, the range is the
merge-base range against `origin/main`. -/
theorem resolveScope_spec_witness :
    resolveScope oracleRemoteParent "feature" "main" true = .range "abc123" "feature" := by
  have h := (resolveScope_spec oracleRemoteParent "feature" "main").2.1
    (by decide) (by decide) |>.2 "abc123\n" (by rfl)
  simpa using h

lemma findCandidate_none (o : DetectOracle) :
    ∀ bs : List String,
      (∀ b ∈ bs, o.verifyRef b = false ∧ o.verifyRef ("origin/" ++ b) = false) →
      findCandidate o bs = none := by
  intro bs
  induction bs with
  | nil => intro _; rfl
  | cons b rest ih =>
    intro h
    obtain ⟨h1, h2⟩ := h b (List.mem_cons_self _ _)
    simp only [findCandidate, h1, h2, Bool.false_eq_true, if_false]
    exact ih (fun x hx => h x (List.mem_cons_of_mem _ hx))

/-- C4 (amended): `detectDefaultBranch` always returns a string, trying the
candidates in fixed order (local ref first, then `origin/<name>`), then the
advertised `HEAD branch:` of the remote, then the first line of the local
branch listing; it returns the literal `"main"` when no candidate matches,
no remote default is advertised, **and the local branch listing yields
nothing**. -/
theorem detectDefaultBranch_amended (o : DetectOracle) :
    (∀ b, findCandidate o defaultBranches = some b → detectDefaultBranch o = b) ∧
    (∀ out b, findCandidate o defaultBranches = none → o.remoteShowOrigin = .ok out →
       advertisedHead out = some b → detectDefaultBranch o = b) ∧
    (∀ out b, findCandidate o defaultBranches = none →
       (match o.remoteShowOrigin with
        | .ok o' => advertisedHead o'
        | .error _ => none) = none →
       o.branchList = .ok out → firstListedBranch out = some b →
       detectDefaultBranch o = b) ∧
    ((∀ b ∈ defaultBranches, o.verifyRef b = false ∧ o.verifyRef ("origin/" ++ b) = false) →
     (match o.remoteShowOrigin with
      | .ok o' => advertisedHead o'
      | .error _ => none) = none →
     (match o.branchList with
      | .ok o' => firstListedBranch o'
      | .error _ => none) = none →
     detectDefaultBranch o = "main") := by
  refine ⟨?_, ?_, ?_, ?_⟩
  · intro b hb
    simp [detectDefaultBranch, hb]
  · intro out b hc hr ha
    simp [detectDefaultBranch, hc, hr, ha]
  · intro out b hc hr hl hf
    simp only [detectDefaultBranch, hc, hr, hl, hf]
  · intro hnone hr hl
    simp only [detectDefaultBranch, findCandidate_none o defaultBranches hnone, hr, hl]

/-- Oracle for the C4 counterexample: no candidate branch exists anywhere, no
remote default is advertised, but the repository has a branch `feature`. -/
def oracleFeatureOnly : DetectOracle :=
  { verifyRef := fun _ => false,
    remoteShowOrigin := .error "no origin",
    branchList := .ok "* feature\n  other" }

/-- Counterexample to C4 as stated: none of the five candidate names exists
locally or remotely and no remote default is advertised, yet the function
returns `"feature"` (the first line of the local branch listing), not the
literal `"main"`. -/
theorem detectDefaultBranch_counterexample :
    (∀ b ∈ defaultBranches,
       oracleFeatureOnly.verifyRef b = false ∧
       oracleFeatureOnly.verifyRef ("origin/" ++ b) = false) ∧
    oracleFeatureOnly.remoteShowOrigin = .error "no origin" ∧
    detectDefaultBranch oracleFeatureOnly = "feature" ∧
    "feature" ≠ "main" :=
  ⟨by decide, rfl, by decide, by decide⟩

/-- Oracle for the C4 witness: every probe fails. -/
def oracleBare : DetectOracle :=
  { verifyRef := fun _ => false,
    remoteShowOrigin := .error "no origin",
    branchList := .error "fatal" }

/-- Witness for C4 (amended) at a concrete oracle with an empty world:
the fallback result is the literal main. -/
theorem detectDefaultBranch_amended_witness :
    detectDefaultBranch oracleBare = "main" :=
  (detectDefaultBranch_amended oracleBare).2.2.2 (by decide) rfl rfl

end ResolverTheorems

section ControllerTheorems

/-- A concrete environment for witnesses: a valid repository whose current
branch is `feature`. -/
def testEnv : GitEnv :=
  { abs := fun _ => .ok "/repo", isGitRepo := fun _ => true,
    getCurrentBranch := fun _ => .ok "feature", detectDefault := fun _ => "main" }

/-- C5: delivering a fetch-completion message that carries a failure changes
nothing but the status message, which is set with error severity: the screen
does not advance, no commit list is stored, and no command is issued. -/
theorem fetch_failure_state_unchanged (env : GitEnv) (now : Int) (m : Model)
    (commits : List CommitInfo) (branch : String) (e : GitErr) :
    update env now m (.fetchCommits commits branch (some e)) =
      ({ m with message := "Error: " ++ e, messageStyle := .error }, []) := rfl

/-- C6: the max-commit cap of `fetchCommitsCmd`. For a successful resolver
result of more than `N > 0` commits the delivered and stored list is exactly
the first `N` commits in resolver order; with `N = 0` the full list is
delivered and stored. -/
theorem fetch_cap_spec (env : GitEnv) (now : Int) (m : Model)
    (l : List CommitInfo) (b : String) (N : Int) :
    (0 < N → N < (l.length : Int) →
       fetchCommitsResult (.ok (l, b)) N = .fetchCommits (l.take N.toNat) b none ∧
       (update env now m (.fetchCommits (l.take N.toNat) b none)).1.commits
         = l.take N.toNat) ∧
    (fetchCommitsResult (.ok (l, b)) 0 = .fetchCommits l b none ∧
       (update env now m (.fetchCommits l b none)).1.commits = l) := by
  constructor
  · intro h1 h2
    constructor
    · simp only [fetchCommitsResult]
      rw [if_pos ⟨h1, h2⟩]
    · rfl
  · constructor
    · simp [fetchCommitsResult]
    · rfl

/-- Five commits for the C6 witness, most recent first. -/
def fiveCommits : List CommitInfo :=
  ["h5", "h4", "h3", "h2", "h1"].map (fun h =>
    { hash := h, author := "a", email := "e", date := "d", message := "m", files := [] })

/-- Witness for C6 at the spec's own example: a linear history of 5 commits
with a cap of 2 delivers exactly the first 2, in order. -/
theorem fetch_cap_spec_witness :
    fetchCommitsResult (.ok (fiveCommits, "feature")) 2 =
      .fetchCommits (fiveCommits.take 2) "feature" none ∧
    (update testEnv 0 initialModel
       (.fetchCommits (fiveCommits.take 2) "feature" none)).1.commits =
      fiveCommits.take 2 :=
  (fetch_cap_spec testEnv 0 initialModel fiveCommits "feature" 2).1
    (by decide) (by decide)

lemma tickToast_active (t : Toast) (now : Int) (h : t.visible = true)
    (hlt : now - t.startTime < t.duration) :
    tickToast t now =
      ({ t with
          position :=
            if now - t.startTime < 300 then
              1 - (1 - ((now - t.startTime : Int) : ℚ) / 300)
                * (1 - ((now - t.startTime : Int) : ℚ) / 300)
                * (1 - ((now - t.startTime : Int) : ℚ) / 300)
            else 1,
          opacity :=
            if now - t.startTime < 200 then ((now - t.startTime : Int) : ℚ) / 200
            else if now - t.startTime ≥ t.duration - 500 then
              1 - (((now - t.startTime) - (t.duration - 500) : Int) : ℚ) / 500
            else 1 }, true) := by
  simp only [tickToast, h, if_true]
  rw [if_neg (not_le.mpr hlt)]
  split_ifs <;> rfl

/-- C7: toast animation. While visible, a tick at wall-clock `now` with
`elapsed = now - startTime`: if `elapsed ≥ duration` the toast becomes Hidden
with opacity and position reset to 0; otherwise the position follows the
cubic ease-out `1 - (1 - elapsed/300)³` for the first 300 ms and is 1.0
after, and the opacity fades in linearly over the first 200 ms, is 1.0 in
the steady middle, and fades out linearly over the final 500 ms window. In
particular at `elapsed = 0` opacity and position are 0, and at
`elapsed = 150` the position is `1 - (1/2)³ = 0.875`. The explicit hide
message also forces Hidden with both values reset. -/
theorem toast_tick_spec (t : Toast) (now : Int) (h : t.visible = true) :
    (now - t.startTime ≥ t.duration →
       tickToast t now = ({ t with visible := false, opacity := 0, position := 0 }, false)) ∧
    (now - t.startTime < t.duration →
       (tickToast t now).1.visible = true ∧
       (tickToast t now).1.position =
         (if now - t.startTime < 300 then
            1 - (1 - ((now - t.startTime : Int) : ℚ) / 300) ^ 3
          else 1) ∧
       (tickToast t now).1.opacity =
         (if now - t.startTime < 200 then ((now - t.startTime : Int) : ℚ) / 200
          else if now - t.startTime ≥ t.duration - 500 then
            1 - (((now - t.startTime) - (t.duration - 500) : Int) : ℚ) / 500
          else 1)) ∧
    (now - t.startTime = 0 → 0 < t.duration →
       (tickToast t now).1.opacity = 0 ∧ (tickToast t now).1.position = 0) ∧
    (now - t.startTime = 150 → 150 < t.duration →
       (tickToast t now).1.position = 7 / 8) ∧
    (∀ (env : GitEnv) (now' : Int) (m : Model), m.toast = t →
       (update env now' m .hideToast).1.toast =
         { t with visible := false, opacity := 0, position := 0 }) := by
  refine ⟨?_, ?_, ?_, ?_, ?_⟩
  · intro hge
    simp only [tickToast, h, if_true]
    rw [if_pos hge]
  · intro hlt
    rw [tickToast_active t now h hlt]
    refine ⟨h, ?_, rfl⟩
    split_ifs <;> ring
  · intro h0 hd
    have hlt : now - t.startTime < t.duration := by rw [h0]; exact hd
    rw [tickToast_active t now h hlt]
    constructor
    · simp [h0]
    · simp [h0]
  · intro h150 hd
    have hlt : now - t.startTime < t.duration := by rw [h150]; exact hd
    rw [tickToast_active t now h hlt]
    rw [h150]
    norm_num
  · intro env now' m hm
    subst hm
    rfl

/-- A visible toast for the C7 witness: shown at time 0 with the controller's
standard 3-second duration. -/
def t0Toast : Toast :=
  { message := "Exported 2 commits to Excel", ttype := .success, visible := true,
    opacity := 0, position := 0, startTime := 0, duration := 3000 }

/-- Witness for C7 at `elapsed = 150`: the slide-in position is exactly
`1 - (1/2)³ = 7/8`. -/
theorem toast_tick_spec_witness :
    t0Toast.visible = true ∧ (tickToast t0Toast 150).1.position = 7 / 8 :=
  ⟨rfl, (toast_tick_spec t0Toast 150 rfl).2.2.2.1 (by decide) (by decide)⟩

lemma strOf_data (s : String) : strOf s.data = s := rfl

lemma strOf_append (v : String) (cs : List Char) : strOf (v.data ++ cs) = v ++ strOf cs := by
  cases v; rfl

lemma insertRunes_value (ti : TextInput) (s : String) (hlim : ti.charLimit = 256)
    (hlen : ti.value.length + s.length ≤ 256) :
    ti.insertRunes s = { ti with value := ti.value ++ s } := by
  have hs : s.data.length ≤ 256 - ti.value.length := by
    have h1 : s.length = s.data.length := rfl
    omega
  simp only [TextInput.insertRunes, hlim]
  rw [if_pos (by norm_num : (256 : Nat) > 0), List.take_of_length_le hs, strOf_append,
    strOf_data]

lemma setValue_value (ti : TextInput) (v : String) (hlim : ti.charLimit = 256)
    (hlen : v.length ≤ 256) :
    ti.setValue v = { ti with value := v } := by
  have hs : v.data.length ≤ 256 := hlen
  simp only [TextInput.setValue, hlim]
  rw [if_pos (by norm_num : (256 : Nat) > 0), List.take_of_length_le hs, strOf_data]

/-- C8 (amended): in the parent-branch sub-mode of the Options screen,
confirming a non-empty value stores it as the parent-branch name and returns
to the same Options screen with the commit-count prompt restored and no
command issued. The sub-mode is recognised by comparing the status message
against the prompt text, not by an explicit state field. -/
theorem options_parent_submode (env : GitEnv) (now : Int) (m : Model)
    (h1 : m.currentScreen = .options) (h2 : m.message = promptParentBranch)
    (h3 : m.textInput.value ≠ "") :
    update env now m .keyEnter =
      ({ m with parentBranch := m.textInput.value,
                textInput := (m.textInput.withPlaceholder promptMaxCommits).setValue "0",
                message := "Configure additional options", messageStyle := .info }, []) ∧
    (update env now m .keyEnter).1.currentScreen = .options ∧
    (update env now m .keyEnter).2 = [] := by
  have key : update env now m .keyEnter =
      ({ m with parentBranch := m.textInput.value,
                textInput := (m.textInput.withPlaceholder promptMaxCommits).setValue "0",
                message := "Configure additional options", messageStyle := .info }, []) := by
    simp only [update, updateKeyEnter, h1, h2, eq_self_iff_true, if_true, ite_true]
    rw [if_pos h3]
  refine ⟨key, ?_, ?_⟩
  · rw [key]; exact h1
  · rw [key]

/-- A session state sitting in the Options parent-branch sub-mode with the
entered value `dev`. -/
def mSubState : Model :=
  { initialModel with
      currentScreen := .options, author := "x",
      message := promptParentBranch,
      textInput := { value := "dev", placeholder := promptParentBranch, charLimit := 256 } }

/-- The same state except for the displayed status message. -/
def mNormState : Model := { mSubState with message := "Configure additional options" }

/-- Counterexample to C8 as stated: `mSubState` and `mNormState` agree on
every field except the displayed status message, yet confirming behaves
differently on them (stores the parent-branch name vs. issues a fetch), so
the controller distinguishes the sub-mode by comparing displayed text, not by
explicit state. -/
theorem options_parent_submode_counterexample :
    ({ mNormState with message := promptParentBranch } = mSubState) ∧
    mNormState.message ≠ mSubState.message ∧
    (update testEnv 0 mSubState .keyEnter).1.parentBranch = "dev" ∧
    (update testEnv 0 mSubState .keyEnter).2 = [] ∧
    (update testEnv 0 mNormState .keyEnter).1.parentBranch = "main" ∧
    (update testEnv 0 mNormState .keyEnter).2 = [Cmd.fetchCmd "" "x" 0 true "main"] :=
  ⟨rfl, by decide, by decide, by decide, by decide, by decide⟩

/-- Witness for C8 (amended): confirming `dev` in the sub-mode stores it and
stays on Options. -/
theorem options_parent_submode_witness :
    (update testEnv 0 mSubState .keyEnter).1.parentBranch = "dev" ∧
    (update testEnv 0 mSubState .keyEnter).1.currentScreen = .options := by
  have h := options_parent_submode testEnv 0 mSubState rfl rfl (by decide)
  exact ⟨by rw [h.1]; rfl, h.2.1⟩

/-- C10 (amended): on every screen other than Home, the rune `b` triggers
back-navigation along the reverse edge, but the keypress still falls through
to the text input and is appended to the (possibly restored) buffer, so
values containing `b` can be produced through the interactive surface. -/
theorem back_key_inserts (env : GitEnv) (now : Int) (m : Model)
    (hlim : m.textInput.charLimit = 256) :
    (m.currentScreen = .directory → m.textInput.value.length < 256 →
       (update env now m (.keyRunes "b")).1.currentScreen = .home ∧
       (update env now m (.keyRunes "b")).1.textInput.value = m.textInput.value ++ "b") ∧
    (m.currentScreen = .author → m.directory.length < 256 →
       (update env now m (.keyRunes "b")).1.currentScreen = .directory ∧
       (update env now m (.keyRunes "b")).1.textInput.value = m.directory ++ "b") ∧
    (m.currentScreen = .options → m.author.length < 256 →
       (update env now m (.keyRunes "b")).1.currentScreen = .author ∧
       (update env now m (.keyRunes "b")).1.textInput.value = m.author ++ "b") ∧
    (m.currentScreen = .results → (toString m.maxCommits).length < 256 →
       (update env now m (.keyRunes "b")).1.currentScreen = .options ∧
       (update env now m (.keyRunes "b")).1.textInput.value = toString m.maxCommits ++ "b") := by
  have hb : ("b" : String).length = 1 := rfl
  obtain ⟨scr, ti, dir, auth, msg, sty, com, br, mx, sf, cbo, pb, q, w, hgt, tst⟩ := m
  simp only at hlim
  refine ⟨?_, ?_, ?_, ?_⟩ <;> intro hscr hlen <;> simp only at hscr hlen <;> subst hscr
  · simp only [update, updateKeyRunes]
    rw [if_neg (by decide), if_pos (by decide)]
    refine ⟨rfl, ?_⟩
    show (ti.insertRunes "b").value = ti.value ++ "b"
    rw [insertRunes_value ti "b" hlim (by rw [hb]; omega)]
  · simp only [update, updateKeyRunes]
    rw [if_neg (by decide), if_pos (by decide)]
    refine ⟨rfl, ?_⟩
    show (((ti.withPlaceholder promptDirectory).setValue dir).insertRunes "b").value
      = dir ++ "b"
    rw [setValue_value _ dir
      (show (ti.withPlaceholder promptDirectory).charLimit = 256 from hlim) (by omega)]
    rw [insertRunes_value _ "b" (by exact hlim) (by rw [hb]; simp only; omega)]
  · simp only [update, updateKeyRunes]
    rw [if_neg (by decide), if_pos (by decide)]
    refine ⟨rfl, ?_⟩
    show (((ti.withPlaceholder promptAuthor).setValue auth).insertRunes "b").value
      = auth ++ "b"
    rw [setValue_value _ auth
      (show (ti.withPlaceholder promptAuthor).charLimit = 256 from hlim) (by omega)]
    rw [insertRunes_value _ "b" (by exact hlim) (by rw [hb]; simp only; omega)]
  · simp only [update, updateKeyRunes]
    rw [if_neg (by decide), if_pos (by decide)]
    refine ⟨rfl, ?_⟩
    show (((ti.withPlaceholder promptMaxCommits).setValue (toString mx)).insertRunes "b").value
      = toString mx ++ "b"
    rw [setValue_value _ (toString mx)
      (show (ti.withPlaceholder promptMaxCommits).charLimit = 256 from hlim) (by omega)]
    rw [insertRunes_value _ "b" (by exact hlim) (by rw [hb]; simp only; omega)]

/-- Counterexample to C10 as stated: from the Options screen (author filter
`x`), pressing `b` navigates back to the Author screen but also appends `b`
to the restored buffer, and confirming then stores the author filter `xb` —
a value containing the letter `b` typed through the interactive surface. -/
theorem back_key_counterexample :
    (update testEnv 0 mNormState (.keyRunes "b")).1.currentScreen = .author ∧
    (update testEnv 0 mNormState (.keyRunes "b")).1.textInput.value = "xb" ∧
    (update testEnv 0 ((update testEnv 0 mNormState (.keyRunes "b")).1) .keyEnter).1.author
      = "xb" :=
  ⟨by decide, by decide, by decide⟩

/-- Witness for C10 (amended) at a concrete Options-screen state. -/
theorem back_key_inserts_witness :
    (update testEnv 0 mNormState (.keyRunes "b")).1.currentScreen = .author ∧
    (update testEnv 0 mNormState (.keyRunes "b")).1.textInput.value = "xb" := by
  have h := (back_key_inserts testEnv 0 mNormState rfl).2.2.1 rfl (by decide)
  exact ⟨h.1, h.2.trans (by decide)⟩

/-- C1 (amended): every user-input event moves the screen only along a §4.2
edge or leaves it unchanged, and fetch-failure, export-completion, toast and
tick messages never change the screen; but a successful fetch completion
always sets the screen to Results from whatever screen is current at
delivery time, which follows a §4.2 edge only when delivered on Options or
Results — a stale success delivered after navigating elsewhere takes an edge
outside the table. (The reset-to-home completion is never issued by any
dispatch branch and so is never delivered.) -/
theorem screen_transitions_amended (env : GitEnv) (now : Int) (m : Model) :
    ((update env now m .keyQuit).1.currentScreen = m.currentScreen) ∧
    ((update env now m .keyEnter).1.currentScreen = m.currentScreen ∨
       specEdge m.currentScreen (update env now m .keyEnter).1.currentScreen = true) ∧
    (∀ alt, (update env now m (.keyTab alt)).1.currentScreen = m.currentScreen) ∧
    (∀ key, (update env now m (.keyRunes key)).1.currentScreen = m.currentScreen ∨
       specEdge m.currentScreen (update env now m (.keyRunes key)).1.currentScreen = true) ∧
    (∀ commits branch e,
       (update env now m (.fetchCommits commits branch (some e))).1.currentScreen
         = m.currentScreen) ∧
    (∀ commits branch,
       (update env now m (.fetchCommits commits branch none)).1.currentScreen = .results) ∧
    (∀ path err,
       (update env now m (.exportExcel path err)).1.currentScreen = m.currentScreen) ∧
    (∀ message ttype duration,
       (update env now m (.showToast message ttype duration)).1.currentScreen
         = m.currentScreen) ∧
    ((update env now m .hideToast).1.currentScreen = m.currentScreen) ∧
    (∀ t, (update env now m (.tick t)).1.currentScreen = m.currentScreen) ∧
    (∀ w h, (update env now m (.windowSize w h)).1.currentScreen = m.currentScreen) := by
  obtain ⟨scr, ti, dir, auth, msg, sty, com, br, mx, sf, cbo, pb, q, w, hgt, tst⟩ := m
  refine ⟨rfl, ?_, ?_, ?_, fun _ _ _ => rfl, fun _ _ => rfl, ?_, fun _ _ _ => rfl, rfl,
    fun _ => rfl, fun _ _ => rfl⟩
  · cases scr with
    | home => exact Or.inr rfl
    | directory =>
      rcases habs : env.abs (if ti.value = "" then "." else ti.value) with e | absDir
      · left; simp [update, updateKeyEnter, habs]
      · cases hrepo : env.isGitRepo absDir with
        | false => left; simp [update, updateKeyEnter, habs, hrepo]
        | true =>
          rcases hbr : env.getCurrentBranch absDir with e | branchName
          · left; simp [update, updateKeyEnter, habs, hrepo, hbr]
          · right; simp [update, updateKeyEnter, habs, hrepo, hbr, specEdge]
    | author =>
      by_cases hv : ti.value = ""
      · left; simp [update, updateKeyEnter, hv]
      · right; simp [update, updateKeyEnter, hv, specEdge]
    | options =>
      by_cases hm : msg = promptParentBranch
      · left; simp [update, updateKeyEnter, hm]
      · left; simp [update, updateKeyEnter, hm]
    | results => left; rfl
  · intro alt
    cases scr <;> cases alt <;> simp [update]
  · intro key
    cases scr <;> by_cases hk1 : key = "p" <;> by_cases hk2 : key = "b" <;>
      simp [update, updateKeyRunes, hk1, hk2, specEdge]
  · intro path err
    cases err <;> rfl

/-- The reachable prelude for the C1 counterexample: Home → Directory →
Author (valid repository) → Options, with author filter `a` entered. -/
def c1Mid : Model :=
  ([Msg.keyEnter, Msg.keyEnter, Msg.keyRunes "a", Msg.keyEnter]).foldl
    (fun m msg => (update testEnv 0 m msg).1) initialModel

/-- The state after confirming on Options (a fetch command is issued and the
screen stays on Options) and then pressing back to the Author screen. -/
def c1Stale : Model :=
  (update testEnv 0 (update testEnv 0 c1Mid .keyEnter).1 (.keyRunes "b")).1

/-- Counterexample to C1 as stated: along a reachable trace, confirming on
Options issues a fetch and back-navigation returns to the Author screen;
the stale fetch success delivered there moves the screen Author → Results,
which is not an edge of the §4.2 transition table. -/
theorem screen_transitions_counterexample :
    c1Mid.currentScreen = .options ∧
    (update testEnv 0 c1Mid .keyEnter).2 = [Cmd.fetchCmd "/repo" "a" 0 true "main"] ∧
    c1Stale.currentScreen = .author ∧
    (update testEnv 0 c1Stale (.fetchCommits [] "feature" none)).1.currentScreen
      = .results ∧
    specEdge .author .results = false ∧
    Screen.author ≠ Screen.results :=
  ⟨by decide, by decide, by decide, by decide, rfl, by decide⟩

end ControllerTheorems

section ExportTheorems

lemma splitChars_not_mem (sep : Char) (l : List Char) (h : sep ∉ l) :
    splitChars sep l = [l] := by
  induction l with
  | nil => rfl
  | cons c cs ih =>
    simp only [List.mem_cons, not_or] at h
    obtain ⟨h1, h2⟩ := h
    simp only [splitChars]
    rw [if_neg (fun hq => h1 hq.symm), ih h2]

lemma splitChars_sep_append (sep : Char) (l1 l2 : List Char) (h : sep ∉ l1) :
    splitChars sep (l1 ++ sep :: l2) = l1 :: splitChars sep l2 := by
  induction l1 with
  | nil => simp [splitChars]
  | cons c cs ih =>
    simp only [List.mem_cons, not_or] at h
    obtain ⟨h1, h2⟩ := h
    simp only [List.cons_append, splitChars, List.append_eq]
    rw [ih h2, if_neg (fun hq => h1 hq.symm)]

lemma goJoinFiles_cons_cons (f g : String) (rest : List String) :
    (goJoinFiles (f :: g :: rest)).data
      = f.data ++ '\n' :: (goJoinFiles (g :: rest)).data := by
  show (f ++ "\n" ++ goJoinFiles (g :: rest)).data = _
  rw [String.data_append, String.data_append]
  simp [List.append_assoc]

lemma goSplit_goJoinFiles (fs : List String) (hne : fs ≠ [])
    (hnl : ∀ f ∈ fs, '\n' ∉ f.data) :
    goSplit '\n' (goJoinFiles fs) = fs := by
  induction fs with
  | nil => exact absurd rfl hne
  | cons f rest ih =>
    cases rest with
    | nil =>
      show goSplit '\n' f = [f]
      unfold goSplit
      rw [splitChars_not_mem '\n' f.data (hnl f (List.mem_cons_self _ _))]
      simp [strOf_data]
    | cons g rest2 =>
      unfold goSplit
      rw [goJoinFiles_cons_cons,
        splitChars_sep_append '\n' f.data _ (hnl f (List.mem_cons_self _ _))]
      rw [List.map_cons, strOf_data]
      have hrec := ih List.noConfusion
        (fun x hx => hnl x (List.mem_cons_of_mem _ hx))
      unfold goSplit at hrec
      rw [hrec]

lemma goJoinFiles_ne_sentinel (fs : List String) (hne : fs ≠ [])
    (hnl : ∀ f ∈ fs, '\n' ∉ f.data) (hs : fs ≠ ["No files changed"]) :
    goJoinFiles fs ≠ "No files changed" := by
  cases fs with
  | nil => exact absurd rfl hne
  | cons f rest =>
    cases rest with
    | nil =>
      intro hcontra
      exact hs (by rw [show goJoinFiles [f] = f from rfl] at hcontra; rw [hcontra])
    | cons g rest2 =>
      intro hcontra
      have hdata := congrArg String.data hcontra
      rw [goJoinFiles_cons_cons] at hdata
      have hmem : '\n' ∈ ("No files changed" : String).data := by
        rw [← hdata]
        exact List.mem_append_right _ (List.mem_cons_self _ _)
      exact absurd hmem (by decide)

lemma getDRow0 (x0 x1 x2 x3 x4 x5 : String) : List.getD [x0, x1, x2, x3, x4, x5] 0 "" = x0 := rfl
lemma getDRow5 (x0 x1 x2 x3 x4 x5 : String) : List.getD [x0, x1, x2, x3, x4, x5] 5 "" = x5 := rfl

lemma excelCommitOfRow_explicit (x0 x1 x2 x3 x4 x5 : String) :
    excelCommitOfRow [x0, x1, x2, x3, x4, x5] =
      { hash := x0, author := x1, email := x2, date := x3, message := x4,
        files := excelFilesOf x5 } := rfl

lemma csvCommitOfRow_explicit (x0 x1 x2 x3 x4 x5 : String) :
    csvCommitOfRow [x0, x1, x2, x3, x4, x5] =
      { hash := x0, author := x1, email := x2, date := x3, message := x4,
        files := if x5 = "" then [] else [x5] } := rfl

lemma csvRowsToCommits_cons (r : List String) (rest : List (List String)) :
    csvRowsToCommits (r :: rest) =
      match csvRowsToCommits rest with
      | [] => [csvCommitOfRow r]
      | c :: cs =>
        if c.hash = r.getD 0 "" then { c with files := r.getD 5 "" :: c.files } :: cs
        else csvCommitOfRow r :: c :: cs := rfl

lemma excel_row_roundtrip (c : CommitInfo) (hnl : ∀ f ∈ c.files, '\n' ∉ f.data)
    (hs : c.files ≠ ["No files changed"]) :
    excelCommitOfRow (excelRowOf c) = c := by
  obtain ⟨h, a, e, d, m, files⟩ := c
  simp only at hnl hs
  cases files with
  | nil => rfl
  | cons f rest =>
    show excelCommitOfRow [h, a, e, d, m, excelFilesStr (f :: rest)] = _
    rw [excelCommitOfRow_explicit]
    have hstr : excelFilesStr (f :: rest) = goJoinFiles (f :: rest) := by
      simp [excelFilesStr]
    rw [hstr]
    have hfields : excelFilesOf (goJoinFiles (f :: rest)) = f :: rest := by
      simp only [excelFilesOf]
      rw [if_neg (goJoinFiles_ne_sentinel _ List.noConfusion hnl hs)]
      exact goSplit_goJoinFiles _ List.noConfusion hnl
    rw [hfields]

lemma excelImport_roundtrip (l : List CommitInfo)
    (h : ∀ c ∈ l, (∀ f ∈ c.files, '\n' ∉ f.data) ∧ c.files ≠ ["No files changed"]) :
    excelImport (exportToExcelGrid l) = l := by
  show (l.map excelRowOf).map excelCommitOfRow = l
  rw [List.map_map]
  have hc : ∀ c ∈ l, (excelCommitOfRow ∘ excelRowOf) c = c := fun c hc =>
    excel_row_roundtrip c (h c hc).1 (h c hc).2
  rw [List.map_congr_left hc]
  rw [show (fun c : CommitInfo => c) = id from rfl, List.map_id]

lemma csv_decode_files (h a e d m : String) (rest : List (List String))
    (hne : ∀ c2 ∈ (csvRowsToCommits rest).head?, c2.hash ≠ h) :
    ∀ (fs : List String) (f : String), (f :: fs).getLast? ≠ some "" →
      csvRowsToCommits ((f :: fs).map (fun x => [h, a, e, d, m, x]) ++ rest)
        = { hash := h, author := a, email := e, date := d, message := m,
            files := f :: fs } :: csvRowsToCommits rest := by
  intro fs
  induction fs with
  | nil =>
    intro f hlast
    have hf : f ≠ "" := fun hq => hlast (by rw [hq]; rfl)
    show csvRowsToCommits ([h, a, e, d, m, f] :: rest) = _
    rw [csvRowsToCommits_cons]
    cases hR : csvRowsToCommits rest with
    | nil =>
      dsimp only
      rw [csvCommitOfRow_explicit, if_neg hf]
    | cons c2 cs =>
      have hhash : ¬(c2.hash = List.getD [h, a, e, d, m, f] 0 "") := by
        rw [getDRow0]
        exact hne c2 (by rw [hR]; rfl)
      dsimp only
      rw [if_neg hhash, csvCommitOfRow_explicit, if_neg hf]
  | cons g fs2 ih =>
    intro f hlast
    have hrec := ih g (by rwa [List.getLast?_cons_cons] at hlast)
    show csvRowsToCommits ([h, a, e, d, m, f] :: ((g :: fs2).map _ ++ rest)) = _
    rw [csvRowsToCommits_cons, hrec]
    dsimp only
    rw [if_pos (getDRow0 h a e d m f).symm, getDRow5]

lemma csvRowsToCommits_roundtrip (l : List CommitInfo)
    (hchain : l.Chain' (fun c1 c2 => c1.hash ≠ c2.hash))
    (hlast : ∀ c ∈ l, c.files.getLast? ≠ some "") :
    csvRowsToCommits (l.flatMap csvRowsOf) = l := by
  induction l with
  | nil => rfl
  | cons c rest ih =>
    obtain ⟨hhead, hchain'⟩ := List.chain'_cons'.mp hchain
    have hrest := ih hchain' (fun x hx => hlast x (List.mem_cons_of_mem _ hx))
    rw [List.flatMap_cons]
    obtain ⟨h, a, e, d, m, files⟩ := c
    have hne : ∀ c2 ∈ (csvRowsToCommits (rest.flatMap csvRowsOf)).head?,
        c2.hash ≠ h := by
      intro c2 hc2
      rw [hrest] at hc2
      cases rest with
      | nil => cases hc2
      | cons c3 rest3 =>
        have hc23 : c2 = c3 := by
          simp only [List.head?, Option.mem_def, Option.some.injEq] at hc2
          rw [hc2]
        rw [hc23]
        exact fun hq => (hhead c3 rfl) hq.symm
    cases hfl : files with
    | nil =>
      show csvRowsToCommits ([[h, a, e, d, m, ""]] ++ rest.flatMap csvRowsOf) = _
      rw [List.singleton_append, csvRowsToCommits_cons, hrest]
      cases rest with
      | nil =>
        dsimp only
        rw [csvCommitOfRow_explicit, if_pos rfl]
      | cons c3 rest3 =>
        have hhash : ¬(c3.hash = List.getD [h, a, e, d, m, ""] 0 "") := by
          rw [getDRow0]
          exact fun hq => (hhead c3 rfl) hq.symm
        dsimp only
        rw [if_neg hhash, csvCommitOfRow_explicit, if_pos rfl]
    | cons f fs =>
      have hrows : csvRowsOf
          { hash := h, author := a, email := e, date := d, message := m,
            files := f :: fs }
          = (f :: fs).map (fun x => [h, a, e, d, m, x]) := by
        simp [csvRowsOf]
      rw [hrows, csv_decode_files h a e d m _ hne fs f
        (by have hx := hlast _ (List.mem_cons_self _ _); rw [hfl] at hx; exact hx)]
      rw [hrest]

lemma splitChars_sep_not_mem (sep : Char) :
    ∀ (l : List Char), ∀ p ∈ splitChars sep l, sep ∉ p := by
  intro l
  induction l with
  | nil =>
    intro p hp
    simp only [splitChars, List.mem_singleton] at hp
    subst hp
    simp
  | cons c cs ih =>
    intro p hp
    simp only [splitChars] at hp
    by_cases hc : c = sep
    · rw [if_pos hc] at hp
      rcases List.mem_cons.mp hp with hp | hp
      · subst hp; simp
      · exact ih p hp
    · rw [if_neg hc] at hp
      cases hr : splitChars sep cs with
      | nil =>
        rw [hr] at hp
        simp only [List.mem_singleton] at hp
        subst hp
        simp only [List.mem_cons, List.not_mem_nil, or_false]
        exact fun hq => hc hq.symm
      | cons hh tt =>
        rw [hr] at hp
        rcases List.mem_cons.mp hp with hp | hp
        · subst hp
          intro hmem
          rcases List.mem_cons.mp hmem with hm | hm
          · exact hc hm.symm
          · exact ih hh (by rw [hr]; exact List.mem_cons_self _ _) hm
        · exact ih p (by rw [hr]; exact List.mem_cons_of_mem _ hp)

/-- Changed-file lists parsed by the resolver never contain a newline: they
come from splitting the trimmed tool output at newlines. -/
lemma parseChangedFiles_no_newline (out : String) :
    ∀ f ∈ parseChangedFiles out, '\n' ∉ f.data := by
  intro f hf
  simp only [parseChangedFiles] at hf
  by_cases hcond : goSplit '\n' (goTrim out) = [""]
  · rw [if_pos hcond] at hf
    cases hf
  · rw [if_neg hcond] at hf
    simp only [goSplit, List.mem_map] at hf
    obtain ⟨part, hpart, hfeq⟩ := hf
    have hdata : f.data = part := by rw [← hfeq]; rfl
    rw [hdata]
    exact splitChars_sep_not_mem '\n' (goTrim out).data part hpart

/-- C9 (amended): writing a commit list with either export adapter and
reading the artifact back with the canonical reader reproduces every
commit's hash, author, email, date, subject and full ordered file list —
including zero-file commits — provided consecutive commits have distinct
hashes, no file path contains a newline, no file list ends in an empty
path, and no file list is exactly `["No files changed"]` (the sentinel text
the workbook writer uses for zero-file commits). -/
theorem export_roundtrip (l : List CommitInfo)
    (hchain : l.Chain' (fun c1 c2 => c1.hash ≠ c2.hash))
    (hlast : ∀ c ∈ l, c.files.getLast? ≠ some "")
    (hnl : ∀ c ∈ l, ∀ f ∈ c.files, '\n' ∉ f.data)
    (hs : ∀ c ∈ l, c.files ≠ ["No files changed"]) :
    csvImport (exportToCSV l) = l ∧ excelImport (exportToExcelGrid l) = l := by
  constructor
  · exact csvRowsToCommits_roundtrip l hchain hlast
  · exact excelImport_roundtrip l (fun c hc => ⟨hnl c hc, hs c hc⟩)

/-- A commit that touched no files. -/
def cNoFiles : CommitInfo :=
  { hash := "h1", author := "a", email := "e", date := "d", message := "m", files := [] }

/-- The same commit except its single changed file is literally named
`No files changed`. -/
def cSentinelFile : CommitInfo := { cNoFiles with files := ["No files changed"] }

/-- Counterexample to C9 as stated: the two distinct resolver-producible
commit lists `[cNoFiles]` and `[cSentinelFile]` (both file lists are in the
range of the changed-files parser, as the last two conjuncts show) produce
identical workbook grids, so no reader of the artifact can reproduce the
file lists of both — the Excel round-trip fails for one of them. -/
theorem export_roundtrip_counterexample :
    exportToExcelGrid [cNoFiles] = exportToExcelGrid [cSentinelFile] ∧
    cNoFiles ≠ cSentinelFile ∧
    parseChangedFiles "No files changed" = ["No files changed"] ∧
    parseChangedFiles "" = [] :=
  ⟨by decide, by decide, by decide, by decide⟩

/-- Commits for the C9 witness: a two-file commit and a zero-file commit. -/
def rtCommits : List CommitInfo :=
  [{ hash := "h2", author := "bob", email := "b@x", date := "2024", message := "fix",
     files := ["a.go", "b.go"] },
   { hash := "h1", author := "alice", email := "a@x", date := "2023", message := "init",
     files := [] }]

/-- Witness for C9 (amended): both adapters round-trip a concrete history
containing a zero-file commit. -/
theorem export_roundtrip_witness :
    csvImport (exportToCSV rtCommits) = rtCommits ∧
    excelImport (exportToExcelGrid rtCommits) = rtCommits :=
  export_roundtrip rtCommits
    (List.chain'_cons.mpr ⟨by decide, List.chain'_singleton _⟩)
    (by decide) (by decide) (by decide)

end ExportTheorems
